import Mathlib

/-!
Verification of `src/liboslnoise/gabornoise.h` (Gabor noise kernels, OSL).

Modelling conventions:
* C++ `float` arithmetic is embedded as exact real (`ℝ`) arithmetic for the
  kernel mathematics, and as exact rational (`ℚ`) arithmetic for the RNG
  output values, ignoring rounding.
* `unsigned int` state is embedded as `Nat` reduced modulo `2^32` at each
  operation, mirroring C unsigned wrap-around.
* Collaborator types that the header only uses (`Vec2`/`Vec3`, `Dual2`
  arithmetic, `Matrix22`, the integer hash, `quick_floor`) are declared in
  other headers of the project; they are modelled from the spec where noted.
-/

namespace pvt

/-- Modelled from the spec: 3-component float vector (`Imath::Vec3`),
componentwise real numbers. -/
structure Vec3 where
  x : ℝ
  y : ℝ
  z : ℝ

/-- Modelled from the spec: 2-component float vector (`Imath::Vec2`). -/
structure Vec2 where
  x : ℝ
  y : ℝ

/-- Dot product of two `Vec3`. -/
def dot3 (u v : Vec3) : ℝ := u.x * v.x + u.y * v.y + u.z * v.z

/-- Dot product of two `Vec2`. -/
def dot2 (u v : Vec2) : ℝ := u.x * v.x + u.y * v.y

/-- Scalar multiple of a `Vec3`. -/
def smul3 (c : ℝ) (v : Vec3) : Vec3 := ⟨c * v.x, c * v.y, c * v.z⟩

/-- Scalar multiple of a `Vec2`. -/
def smul2 (c : ℝ) (v : Vec2) : Vec2 := ⟨c * v.x, c * v.y⟩

/-- Cross product of two `Vec3` (`Imath::Vec3::cross`). -/
def cross3 (u v : Vec3) : Vec3 :=
  ⟨u.y * v.z - u.z * v.y, u.z * v.x - u.x * v.z, u.x * v.y - u.y * v.x⟩

/-- Modelled from the spec: a dual number carrying a value and its two
first-order partials (OSL `Dual2`); the automatic-differentiation arithmetic
library is an external collaborator specified to propagate partials under
standard calculus rules. -/
structure Dual2 (α : Type) where
  val : α
  dx : α
  dy : α

/-- Modelled from the spec: dual-number addition. -/
def dAdd (u v : Dual2 ℝ) : Dual2 ℝ := ⟨u.val + v.val, u.dx + v.dx, u.dy + v.dy⟩

/-- Modelled from the spec: dual-number subtraction. -/
def dSub (u v : Dual2 ℝ) : Dual2 ℝ := ⟨u.val - v.val, u.dx - v.dx, u.dy - v.dy⟩

/-- Modelled from the spec: dual-number product (product rule). -/
def dMul (u v : Dual2 ℝ) : Dual2 ℝ :=
  ⟨u.val * v.val, u.dx * v.val + u.val * v.dx, u.dy * v.val + u.val * v.dy⟩

/-- Modelled from the spec: plain scalar times a dual number. -/
def dScale (c : ℝ) (u : Dual2 ℝ) : Dual2 ℝ := ⟨c * u.val, c * u.dx, c * u.dy⟩

/-- Modelled from the spec: a constant lifted to a dual number (zero partials). -/
def dConst (c : ℝ) : Dual2 ℝ := ⟨c, 0, 0⟩

/-- Modelled from the spec: `exp` on dual numbers (chain rule). -/
noncomputable def dExp (u : Dual2 ℝ) : Dual2 ℝ :=
  ⟨Real.exp u.val, Real.exp u.val * u.dx, Real.exp u.val * u.dy⟩

/-- Modelled from the spec: `cos` on dual numbers (chain rule). -/
noncomputable def dCos (u : Dual2 ℝ) : Dual2 ℝ :=
  ⟨Real.cos u.val, -Real.sin u.val * u.dx, -Real.sin u.val * u.dy⟩

/-- Modelled from the spec: `dot` of two derivative-carrying `Vec3`
(product rule on the bilinear dot). -/
def dDot3 (u v : Dual2 Vec3) : Dual2 ℝ :=
  ⟨dot3 u.val v.val, dot3 u.dx v.val + dot3 u.val v.dx,
    dot3 u.dy v.val + dot3 u.val v.dy⟩

/-- Modelled from the spec: `dot` of a plain `Vec3` with a derivative-carrying
`Vec3` (linear, so partials pass through). -/
def dDotV3 (w : Vec3) (v : Dual2 Vec3) : Dual2 ℝ :=
  ⟨dot3 w v.val, dot3 w v.dx, dot3 w v.dy⟩

/-- Per-component `floor` of a `Dual2<Vec3>`
(`gabornoise.h`, helper `floor`): only the value part is read. -/
noncomputable def floorDual (vd : Dual2 Vec3) : Vec3 :=
  ⟨(⌊vd.val.x⌋ : ℝ), (⌊vd.val.y⌋ : ℝ), (⌊vd.val.z⌋ : ℝ)⟩

/-- Conversion of a signed int to `unsigned int`: reduction modulo `2^32`
(the C `unsigned(...)` casts in `fast_rng`'s constructor). -/
def toU32 (i : ℤ) : ℕ := (i % 2 ^ 32).toNat

/-- Constructor of `fast_rng` (`gabornoise.h` lines 62-71): the state is the
hash of the four-tuple (floor of each component of `p`, the seed), forced to
1 when the hash is zero.  The hash primitive `inthash<4>` and `quick_floor`
are external (spec §2: a deterministic mapping from an integer tuple to a
32-bit value; cells are the floor of the sample position), so the
construction is parametrised by an arbitrary hash function whose output is
reduced to 32 bits. -/
noncomputable def fastRngInit (hash : ℕ → ℕ → ℕ → ℕ → ℕ) (p : Vec3) (seed : ℤ) : ℕ :=
  let h := hash (toU32 ⌊p.x⌋) (toU32 ⌊p.y⌋) (toU32 ⌊p.z⌋) (toU32 seed) % 2 ^ 32
  if h = 0 then 1 else h

/-- One state advance of `fast_rng::operator()`:
`m_seed *= 3039177861u` on 32-bit unsigned state. -/
def rngStep (s : ℕ) : ℕ := s * 3039177861 % 2 ^ 32

/-- The value returned by `fast_rng::operator()` for a (post-advance) state:
the state divided by `UINT_MAX = 4294967295`, as an exact rational. -/
def rngVal (s : ℕ) : ℚ := (s : ℚ) / 4294967295

/-- One full call of `fast_rng::operator()`: advance the state, return the
new state together with the uniform value. -/
def nextUniform (s : ℕ) : ℕ × ℚ := (rngStep s, rngVal (rngStep s))

/-- The product of the first `m` uniform values drawn starting from state
`s` (draw `i` advances the state to `rngStep^[i] s` and yields its value). -/
def prodVals (s : ℕ) : ℕ → ℚ
  | 0 => 1
  | m + 1 => prodVals s m * rngVal (rngStep^[m + 1] s)

/-- Loop of `fast_rng::poisson` (`gabornoise.h` lines 77-86), fuelled:
state after the initial draw is `s`, running product is `t`, count so far is
`em`; while `t > g` draw again and multiply.  `g` stands for the float
`expf(-mean)` (every float is an exact rational).  Returns the count and the
state after the final draw, or `none` if the fuel runs out. -/
def poissonAux (g : ℚ) : ℕ → ℚ → ℕ → ℕ → Option (ℕ × ℕ)
  | 0, _, _, _ => none
  | fuel + 1, t, em, s =>
    if g < t then
      poissonAux g fuel (t * rngVal (rngStep s)) (em + 1) (rngStep s)
    else
      some (em, s)

/-- Full `fast_rng::poisson` with threshold `g = expf(-mean)`: one initial draw,
then the multiply-and-compare loop. -/
def poissonCore (g : ℚ) (fuel : ℕ) (s : ℕ) : Option (ℕ × ℕ) :=
  poissonAux g fuel (rngVal (rngStep s)) 0 (rngStep s)

/-- Source `gabor_kernel` (`gabornoise.h` lines 99-108): the Gabor kernel, a
harmonic modulated by a Gaussian envelope, with dual-number (derivative)
propagation; `VEC = Vec3` instance. -/
noncomputable def gabor_kernel (weight : Dual2 ℝ) (omega : Vec3)
    (phi : Dual2 ℝ) (bandwidth : ℝ) (x : Dual2 Vec3) : Dual2 ℝ :=
  let g := dExp (dScale (-Real.pi * (bandwidth * bandwidth)) (dDot3 x x))
  let h := dCos (dAdd (dScale (2 * Real.pi) (dDotV3 omega x)) phi)
  dMul (dMul weight g) h

/-- Source `slice_gabor_kernel_3d` (`gabornoise.h` lines 112-125): slice a 3D
kernel to the 2D cross-section at signed distance `d`; returns
`(w_s, omega_s, phi_s)`. -/
noncomputable def slice_gabor_kernel_3d (d : Dual2 ℝ) (w a : ℝ)
    (omega : Vec3) (phi : ℝ) : Dual2 ℝ × Vec2 × Dual2 ℝ :=
  let w_s := dScale w (dExp (dScale (-Real.pi * (a * a)) (dMul d d)))
  let omega_s : Vec2 := ⟨omega.x, omega.y⟩
  let phi_s := dSub (dConst phi) (dScale (2 * Real.pi * omega.x) d)
  (w_s, omega_s, phi_s)

/-- Modelled from the spec: the 2×2 matrix collaborator type (row-major
entries `⟨a, b; c, d⟩`), supporting determinant, inverse, and matrix-vector
multiplication. -/
structure Matrix22 where
  a : ℝ
  b : ℝ
  c : ℝ
  d : ℝ

/-- Determinant of a `Matrix22`. -/
def Matrix22.det (m : Matrix22) : ℝ := m.a * m.d - m.b * m.c

/-- The identity matrix (`Matrix22()` default constructor). -/
def midn : Matrix22 := ⟨1, 0, 0, 1⟩

/-- Entrywise sum of two `Matrix22`. -/
def madd (m n : Matrix22) : Matrix22 := ⟨m.a + n.a, m.b + n.b, m.c + n.c, m.d + n.d⟩

/-- Scalar multiple of a `Matrix22`. -/
def msmul (k : ℝ) (m : Matrix22) : Matrix22 := ⟨k * m.a, k * m.b, k * m.c, k * m.d⟩

/-- Modelled from the spec: matrix inverse, adjugate over determinant. -/
noncomputable def Matrix22.inverse (m : Matrix22) : Matrix22 :=
  msmul m.det⁻¹ ⟨m.d, -m.b, -m.c, m.a⟩

/-- Matrix product of two `Matrix22`. -/
def mmul (m n : Matrix22) : Matrix22 :=
  ⟨m.a * n.a + m.b * n.c, m.a * n.b + m.b * n.d,
    m.c * n.a + m.d * n.c, m.c * n.b + m.d * n.d⟩

/-- Modelled from the spec: matrix-vector multiplication `M·v`
(`multMatrix` and `operator*` on `Vec2`). -/
def mvmul (m : Matrix22) (v : Vec2) : Vec2 :=
  ⟨m.a * v.x + m.b * v.y, m.c * v.x + m.d * v.y⟩

/-- The output tuple of the analytic filter: effective weight, bandwidth,
orientation mean and phase (spec §3 `FilteredKernel`). -/
structure FilteredKernel where
  w_f : Dual2 ℝ
  a_f : ℝ
  omega_f : Vec2
  phi_f : Dual2 ℝ

/-- Source `filter_gabor_kernel_2d` (`gabornoise.h` lines 128-154): convolve the
kernel's frequency-domain Gaussian with the footprint covariance `filter`
(Equation 10 of the paper); returns `(w_f, a_f, omega_f, phi_f)`. -/
noncomputable def filter_gabor_kernel_2d (filter : Matrix22) (w : Dual2 ℝ)
    (a : ℝ) (omega : Vec2) (phi : Dual2 ℝ) : FilteredKernel :=
  let Sigma_f := filter
  let c_G := w
  let mu_G := omega
  let Sigma_G := msmul (a * a / (2 * Real.pi)) midn
  let c_F := 1 / (2 * Real.pi * Real.sqrt Sigma_f.det)
  let Sigma_F := msmul (1 / (4 * Real.pi ^ 2)) Sigma_f.inverse
  let Sigma_G_Sigma_F := madd Sigma_G Sigma_F
  let c_GF := dScale (c_F * (1 / (2 * Real.pi * Real.sqrt Sigma_G_Sigma_F.det))
      * Real.exp (-(1 / 2) * dot2 (mvmul Sigma_G_Sigma_F.inverse mu_G) mu_G)) c_G
  let Sigma_G_i := Sigma_G.inverse
  let Sigma_GF := (madd Sigma_F.inverse Sigma_G_i).inverse
  let Sigma_GF_Gi := mmul Sigma_GF Sigma_G_i
  let mu_GF := mvmul Sigma_GF_Gi mu_G
  ⟨c_GF, Real.sqrt (2 * Real.pi * Real.sqrt Sigma_GF.det), mu_GF, phi⟩

/-- Scalar overload of `wrap` (`gabornoise.h` lines 157-164): floor the period,
clamp it to at least 1, then fold `s`. -/
noncomputable def wrap (s period : ℝ) : ℝ :=
  let p := (⌊period⌋ : ℝ)
  let p := if p < 1 then 1 else p
  s - p * ⌊s / p⌋

/-- Vector overload of `wrap` (`gabornoise.h` lines 168-174): componentwise. -/
noncomputable def wrap3 (s period : Vec3) : Vec3 :=
  ⟨wrap s.x period.x, wrap s.y period.y, wrap s.z period.z⟩

/-- Source `Imath::Vec3::normalize`: divide by the Euclidean length (over the
reals, the zero vector maps to the zero vector). -/
noncomputable def normalize3 (v : Vec3) : Vec3 :=
  smul3 (Real.sqrt (dot3 v v))⁻¹ v

/-- Source `make_orthonormals` (`gabornoise.h` lines 183-194): normalize `v`, pick
`a` by crossing with the canonical axis least parallel to `v` (0.9 threshold
on `|v.x|`), normalize `a`, set `b = v × a`.  Returns the updated `(v, a, b)`. -/
noncomputable def make_orthonormals (v : Vec3) : Vec3 × Vec3 × Vec3 :=
  let v' := normalize3 v
  let a0 : Vec3 := if |v'.x| < (9 / 10 : ℝ) then ⟨0, v'.z, -v'.y⟩ else ⟨-v'.z, 0, v'.x⟩
  let a := normalize3 a0
  let b := cross3 v' a
  (v', a, b)

/-- Configuration errors of spec §7. -/
inductive ConfigError where
  | nonPositiveBandwidth : ConfigError
  | singularCovariance : ConfigError

/-- Modelled from the spec: the `NoiseParams` fields the error-handling
claims touch — bandwidth and the footprint covariance (the full struct is
declared in `oslexec_pvt.h`, outside the visible source). -/
structure NoiseParams where
  bandwidth : ℝ
  filter : Matrix22

/-- Modelled from the spec: `NoiseParams` construction-time validation
(spec §7): non-positive bandwidth and singular (non-positive determinant)
footprint covariance are rejected once, before any per-sample evaluation. -/
noncomputable def validateNoiseParams (p : NoiseParams) : Except ConfigError NoiseParams :=
  if p.bandwidth ≤ 0 then .error .nonPositiveBandwidth
  else if p.filter.det ≤ 0 then .error .singularCovariance
  else .ok p

/-- Euclidean norm of a `Vec2`. -/
noncomputable def nrm2 (v : Vec2) : ℝ := Real.sqrt (dot2 v v)

/-- The closed-form value of spec §4.3:
`weight * exp(-pi * bandwidth^2 * |x|^2) * cos(2*pi*dot(omega,x) + phase)`;
stated from the spec's words, to be compared with `gabor_kernel`. -/
noncomputable def gaborFormula (w : ℝ) (omega : Vec3) (ph a : ℝ) (p : Vec3) : ℝ :=
  w * Real.exp (-Real.pi * (a * a) * dot3 p p)
    * Real.cos (2 * Real.pi * dot3 omega p + ph)

/-- The exact analytic directional derivative of `gaborFormula` when the
weight, phase and position move with rates `dw`, `dph`, `dp` (chain and
product rules applied by hand); stated from the spec's words. -/
noncomputable def gaborFormulaDeriv (w dw : ℝ) (omega : Vec3) (ph dph a : ℝ)
    (p dp : Vec3) : ℝ :=
  dw * Real.exp (-Real.pi * (a * a) * dot3 p p)
      * Real.cos (2 * Real.pi * dot3 omega p + ph)
    + w * (-Real.pi * (a * a) * (2 * dot3 p dp))
      * Real.exp (-Real.pi * (a * a) * dot3 p p)
      * Real.cos (2 * Real.pi * dot3 omega p + ph)
    + w * Real.exp (-Real.pi * (a * a) * dot3 p p)
      * (-Real.sin (2 * Real.pi * dot3 omega p + ph)
          * (2 * Real.pi * dot3 omega dp + dph))

/-- A scalar multiple of the 2×2 identity, the shape every matrix in the
isotropic-footprint analysis of the filter takes. -/
def mdiag (k : ℝ) : Matrix22 := ⟨k, 0, 0, k⟩

end pvt

namespace pvt

/-! ### Helper lemmas about the RNG -/

lemma rngStep_lt (s : ℕ) : rngStep s < 2 ^ 32 :=
  Nat.mod_lt _ (by norm_num)

lemma rngStep_le (s : ℕ) : rngStep s ≤ 4294967295 := by
  have := rngStep_lt s
  omega

lemma coprime_pow_two_mult : Nat.Coprime (2 ^ 32) 3039177861 := by
  have h2 : Nat.Coprime 2 3039177861 := by
    rw [Nat.coprime_two_left]
    exact ⟨1519588930, by norm_num⟩
  exact h2.pow_left 32

lemma rngStep_ne_zero {s : ℕ} (h0 : s ≠ 0) (hlt : s < 2 ^ 32) : rngStep s ≠ 0 := by
  intro h
  have hdvd : 2 ^ 32 ∣ s * 3039177861 := Nat.dvd_of_mod_eq_zero h
  have hs : 2 ^ 32 ∣ s := coprime_pow_two_mult.dvd_of_dvd_mul_right hdvd
  exact h0 (Nat.eq_zero_of_dvd_of_lt hs hlt)

lemma fastRngInit_ne_zero (hash : ℕ → ℕ → ℕ → ℕ → ℕ) (p : Vec3) (seed : ℤ) :
    fastRngInit hash p seed ≠ 0 := by
  unfold fastRngInit
  simp only []
  split
  · exact one_ne_zero
  · assumption

lemma fastRngInit_lt (hash : ℕ → ℕ → ℕ → ℕ → ℕ) (p : Vec3) (seed : ℤ) :
    fastRngInit hash p seed < 2 ^ 32 := by
  unfold fastRngInit
  simp only []
  split
  · norm_num
  · exact Nat.mod_lt _ (by norm_num)

/-! ### Claim theorems about the RNG -/

/-- Claim C10: the cell RNG state is non-zero right after construction (a
zero hash is forced to 1), and remains non-zero after every number of calls
to the uniform generator, because the multiplier 3039177861 is odd and hence
invertible modulo `2^32`; the stream can never collapse to the constant
all-zero sequence. -/
theorem rng_state_never_zero (hash : ℕ → ℕ → ℕ → ℕ → ℕ) (p : Vec3) (seed : ℤ) :
    ∀ n : ℕ, rngStep^[n] (fastRngInit hash p seed) ≠ 0 := by
  have key : ∀ n : ℕ, rngStep^[n] (fastRngInit hash p seed) ≠ 0 ∧
      rngStep^[n] (fastRngInit hash p seed) < 2 ^ 32 := by
    intro n
    induction n with
    | zero => exact ⟨fastRngInit_ne_zero hash p seed, fastRngInit_lt hash p seed⟩
    | succ m ih =>
      rw [Function.iterate_succ_apply']
      exact ⟨rngStep_ne_zero ih.1 ih.2, rngStep_lt _⟩
  exact fun n => (key n).1

/-- Claim C5, failing input: from the reachable state 3108836275 (any
non-zero 32-bit value is a possible hash output, hence a possible
post-construction state), one call of the uniform generator advances the
state to `UINT_MAX = 4294967295` and returns exactly 1, so the returned
value is not strictly less than 1, contradicting the source's own
`Return uniform on [0,1)` comment. -/
theorem next_uniform_reaches_one :
    fastRngInit (fun _ _ _ _ => 3108836275) ⟨0, 0, 0⟩ 0 = 3108836275 ∧
    nextUniform 3108836275 = (4294967295, 1) ∧
    ¬ (nextUniform 3108836275).2 < 1 := by
  refine ⟨?_, ?_, ?_⟩
  · unfold fastRngInit
    norm_num
  · show (rngStep 3108836275, rngVal (rngStep 3108836275)) = _
    norm_num [rngStep, rngVal]
  · show ¬ rngVal (rngStep 3108836275) < 1
    norm_num [rngStep, rngVal]

/-- Range actually guaranteed by the uniform generator: every call advances
the 32-bit state by multiplication with 3039177861 modulo `2^32` and returns
the new state divided by `UINT_MAX`, a value in the closed interval
`[0, 1]`; the value is strictly less than 1 if and only if the new state is
not `UINT_MAX` (so the documented right-open interval fails exactly there). -/
theorem next_uniform_range (s : ℕ) :
    (nextUniform s).1 = s * 3039177861 % 2 ^ 32 ∧
    0 ≤ (nextUniform s).2 ∧ (nextUniform s).2 ≤ 1 ∧
    ((nextUniform s).2 < 1 ↔ (nextUniform s).1 ≠ 4294967295) := by
  have hle : rngStep s ≤ 4294967295 := rngStep_le s
  refine ⟨rfl, ?_, ?_, ?_⟩
  · exact div_nonneg (by positivity) (by norm_num)
  · show rngVal (rngStep s) ≤ 1
    rw [rngVal, div_le_one (by norm_num)]
    exact_mod_cast hle
  · show rngVal (rngStep s) < 1 ↔ rngStep s ≠ 4294967295
    rw [rngVal, div_lt_one (by norm_num)]
    constructor
    · intro h heq
      rw [heq] at h
      norm_num at h
    · intro h
      have : rngStep s < 4294967295 := lt_of_le_of_ne hle h
      exact_mod_cast this

/-- Claim C1: the cell RNG is a pure function of the integer cell
coordinates (the component-wise floors of the sample position) and the seed:
two sample points with equal component-wise floors yield identical internal
state, hence identical uniform-draw sequences and identical Poisson counts,
independent of the samples' derivative components and of any other state. -/
theorem cell_rng_pure_function (hash : ℕ → ℕ → ℕ → ℕ → ℕ) (seed : ℤ)
    (p1 p2 : Dual2 Vec3) (h : floorDual p1 = floorDual p2) :
    fastRngInit hash p1.val seed = fastRngInit hash p2.val seed ∧
    (∀ n, rngStep^[n] (fastRngInit hash p1.val seed)
        = rngStep^[n] (fastRngInit hash p2.val seed)) ∧
    (∀ n, rngVal (rngStep^[n] (fastRngInit hash p1.val seed))
        = rngVal (rngStep^[n] (fastRngInit hash p2.val seed))) ∧
    (∀ g fuel, poissonCore g fuel (fastRngInit hash p1.val seed)
        = poissonCore g fuel (fastRngInit hash p2.val seed)) := by
  have hx : ⌊p1.val.x⌋ = ⌊p2.val.x⌋ := by
    have := congrArg Vec3.x h
    simpa [floorDual] using this
  have hy : ⌊p1.val.y⌋ = ⌊p2.val.y⌋ := by
    have := congrArg Vec3.y h
    simpa [floorDual] using this
  have hz : ⌊p1.val.z⌋ = ⌊p2.val.z⌋ := by
    have := congrArg Vec3.z h
    simpa [floorDual] using this
  have hinit : fastRngInit hash p1.val seed = fastRngInit hash p2.val seed := by
    unfold fastRngInit
    rw [hx, hy, hz]
  exact ⟨hinit, fun n => by rw [hinit], fun n => by rw [hinit],
    fun g fuel => by rw [hinit]⟩

/-- Witness for C1 at concrete inputs: two sample points with the same value
but different derivative components have equal floors, and the conclusion
holds for them. -/
theorem cell_rng_pure_function_witness :
    floorDual ⟨⟨0, 0, 0⟩, ⟨1, 2, 3⟩, ⟨4, 5, 6⟩⟩
        = floorDual ⟨⟨0, 0, 0⟩, ⟨7, 8, 9⟩, ⟨1, 1, 1⟩⟩ ∧
    fastRngInit (fun a _ _ _ => a + 5) (⟨0, 0, 0⟩ : Vec3) 0
        = fastRngInit (fun a _ _ _ => a + 5) (⟨0, 0, 0⟩ : Vec3) 0 := by
  have hfl : floorDual ⟨⟨0, 0, 0⟩, ⟨1, 2, 3⟩, ⟨4, 5, 6⟩⟩
      = floorDual ⟨⟨0, 0, 0⟩, ⟨7, 8, 9⟩, ⟨1, 1, 1⟩⟩ := rfl
  exact ⟨hfl, (cell_rng_pure_function (fun a _ _ _ => a + 5) 0
    ⟨⟨0, 0, 0⟩, ⟨1, 2, 3⟩, ⟨4, 5, 6⟩⟩ ⟨⟨0, 0, 0⟩, ⟨7, 8, 9⟩, ⟨1, 1, 1⟩⟩ hfl).1⟩

/-! ### The Poisson loop invariant -/

lemma prodVals_succ (s : ℕ) (m : ℕ) :
    prodVals s (m + 1) = prodVals s m * rngVal (rngStep^[m + 1] s) := rfl

lemma poissonAux_invariant (g : ℚ) (s0 : ℕ) :
    ∀ (fuel em n s' : ℕ),
      poissonAux g fuel (prodVals s0 (em + 1)) em (rngStep^[em + 1] s0) = some (n, s') →
      em ≤ n ∧ prodVals s0 (n + 1) ≤ g ∧
        (∀ k, em ≤ k → k < n → g < prodVals s0 (k + 1)) ∧
        s' = rngStep^[n + 1] s0 := by
  intro fuel
  induction fuel with
  | zero => intro em n s' h; exact absurd h (by simp [poissonAux])
  | succ f ih =>
    intro em n s' h
    rw [poissonAux] at h
    by_cases hc : g < prodVals s0 (em + 1)
    · rw [if_pos hc] at h
      have hstep : rngStep (rngStep^[em + 1] s0) = rngStep^[em + 2] s0 :=
        (Function.iterate_succ_apply' rngStep (em + 1) s0).symm
      have hprod : prodVals s0 (em + 1) * rngVal (rngStep (rngStep^[em + 1] s0))
          = prodVals s0 (em + 2) := by
        rw [hstep]
        exact (prodVals_succ s0 (em + 1)).symm
      rw [hprod, hstep] at h
      obtain ⟨h1, h2, h3, h4⟩ := ih (em + 1) n s' h
      refine ⟨by omega, h2, ?_, h4⟩
      intro k hk1 hk2
      rcases Nat.eq_or_lt_of_le hk1 with heq | hlt
      · rw [← heq]; exact hc
      · exact h3 k hlt hk2
    · rw [if_neg hc] at h
      obtain ⟨hn, hs⟩ := Prod.mk.injEq _ _ _ _ ▸ Option.some.injEq _ _ ▸ h
      subst hn
      exact ⟨le_refl _, not_lt.mp hc, fun k hk1 hk2 => absurd (lt_of_le_of_lt hk1 hk2)
        (lt_irrefl _), hs.symm⟩

/-- Claim C6: when `fast_rng::poisson` terminates (within any fuel bound)
with count `n` and final state `s'`, then `n` is the smallest count such
that the product of the first `n+1` uniform draws is at most the threshold
`g = expf(-mean)` (Knuth's algorithm), and exactly `n+1` draws were
consumed: `s'` is the state after exactly `n+1` generator advances, so a
subsequent draw continues the stream from that point. -/
theorem poisson_knuth (g : ℚ) (fuel s0 n s' : ℕ)
    (h : poissonCore g fuel s0 = some (n, s')) :
    prodVals s0 (n + 1) ≤ g ∧
    (∀ k, k < n → g < prodVals s0 (k + 1)) ∧
    s' = rngStep^[n + 1] s0 := by
  have h0 : poissonAux g fuel (prodVals s0 (0 + 1)) 0 (rngStep^[0 + 1] s0)
      = some (n, s') := by
    have hp : prodVals s0 (0 + 1) = rngVal (rngStep s0) := by
      rw [prodVals_succ]
      simp [prodVals, Function.iterate_one]
    rw [hp, Function.iterate_one]
    exact h
  obtain ⟨_, h2, h3, h4⟩ := poissonAux_invariant g s0 fuel 0 n s' h0
  exact ⟨h2, fun k hk => h3 k (Nat.zero_le k) hk, h4⟩

/-- Witness for C6 at a concrete input: from state 1 with threshold 9/10,
the loop stops after the first draw (count 0), and the conclusion holds. -/
theorem poisson_knuth_witness :
    poissonCore (9 / 10) 5 1 = some (0, 3039177861) ∧
    prodVals 1 1 ≤ 9 / 10 := by
  have hrun : poissonCore (9 / 10) 5 1 = some (0, 3039177861) := by
    show poissonAux _ _ _ _ _ = _
    rw [show rngStep 1 = 3039177861 from by norm_num [rngStep]]
    rw [poissonAux, if_neg (by norm_num [rngVal])]
  exact ⟨hrun, (poisson_knuth (9 / 10) 5 1 0 3039177861 hrun).1⟩

/-! ### Periodic wrap -/

/-- Claim C9: `wrap` floors the period and clamps it to at least 1 (invalid
periods are silently clamped, never rejected), then returns
`s - period * floor(s / period)`; the 3-vector overload applies this
independently to each component. -/
theorem wrap_spec (s period : ℝ) (v p : Vec3) :
    wrap s period
      = s - max 1 (⌊period⌋ : ℝ) * ⌊s / max 1 (⌊period⌋ : ℝ)⌋ ∧
    wrap3 v p = ⟨wrap v.x p.x, wrap v.y p.y, wrap v.z p.z⟩ := by
  constructor
  · rw [wrap]
    by_cases hlt : (⌊period⌋ : ℝ) < 1
    · simp only [if_pos hlt, max_eq_left hlt.le]
    · simp only [if_neg hlt, max_eq_right (not_lt.mp hlt)]
  · rfl

/-! ### The dimensional slicer -/

/-- Claim C2: the dimensional slicer returns the 2D impulse whose weight is
`w * exp(-pi * a^2 * d^2)` (with its exact partials), whose orientation is
the first two components of `omega` unchanged, and whose phase is
`phi - 2*pi*d*omega.x` (with its exact partials). -/
theorem slice_gabor_kernel_3d_spec (d : Dual2 ℝ) (w a : ℝ) (omega : Vec3) (phi : ℝ) :
    ((slice_gabor_kernel_3d d w a omega phi).1.val
        = w * Real.exp (-Real.pi * (a * a) * (d.val * d.val)) ∧
      (slice_gabor_kernel_3d d w a omega phi).1.dx
        = w * Real.exp (-Real.pi * (a * a) * (d.val * d.val))
            * (-Real.pi * (a * a) * (2 * d.val * d.dx)) ∧
      (slice_gabor_kernel_3d d w a omega phi).1.dy
        = w * Real.exp (-Real.pi * (a * a) * (d.val * d.val))
            * (-Real.pi * (a * a) * (2 * d.val * d.dy))) ∧
    (slice_gabor_kernel_3d d w a omega phi).2.1 = ⟨omega.x, omega.y⟩ ∧
    ((slice_gabor_kernel_3d d w a omega phi).2.2.val
        = phi - 2 * Real.pi * d.val * omega.x ∧
      (slice_gabor_kernel_3d d w a omega phi).2.2.dx
        = -(2 * Real.pi * d.dx * omega.x) ∧
      (slice_gabor_kernel_3d d w a omega phi).2.2.dy
        = -(2 * Real.pi * d.dy * omega.x)) := by
  simp only [slice_gabor_kernel_3d, dScale, dExp, dMul, dSub, dConst]
  refine ⟨⟨by ring_nf, by ring, by ring⟩, by trivial, by ring, by ring, by ring⟩

/-! ### The single-impulse kernel -/

/-- Linear motion `t ↦ c + t * d` has derivative `d` everywhere;
specialised to `t = 0`. -/
lemma hasDerivAt_affine (c d : ℝ) : HasDerivAt (fun t : ℝ => c + t * d) d 0 := by
  simpa using ((hasDerivAt_id (0 : ℝ)).mul_const d).const_add c

/-- Certification that `gaborFormulaDeriv` is the true derivative: when the
weight, phase and position move linearly with rates `dw`, `dph`, `dp`, the
resulting path through `gaborFormula` has derivative exactly
`gaborFormulaDeriv w dw omega ph dph a p dp` at `t = 0` (so the partials in
claim C7 are honest analytic derivatives, not merely a transcribed formula). -/
lemma gaborFormulaDeriv_is_deriv (w dw ph dph a : ℝ) (omega p dp : Vec3) :
    HasDerivAt (fun t : ℝ => gaborFormula (w + t * dw) omega (ph + t * dph) a
      ⟨p.x + t * dp.x, p.y + t * dp.y, p.z + t * dp.z⟩)
      (gaborFormulaDeriv w dw omega ph dph a p dp) 0 := by
  have hsq : ∀ (c d : ℝ), HasDerivAt (fun t : ℝ => (c + t * d) * (c + t * d))
      (d * (c + 0 * d) + (c + 0 * d) * d) 0 :=
    fun c d => (hasDerivAt_affine c d).mul (hasDerivAt_affine c d)
  have hA : HasDerivAt (fun t : ℝ => -Real.pi * (a * a) *
      ((p.x + t * dp.x) * (p.x + t * dp.x) + (p.y + t * dp.y) * (p.y + t * dp.y)
        + (p.z + t * dp.z) * (p.z + t * dp.z)))
      (-Real.pi * (a * a) *
        ((dp.x * (p.x + 0 * dp.x) + (p.x + 0 * dp.x) * dp.x)
          + (dp.y * (p.y + 0 * dp.y) + (p.y + 0 * dp.y) * dp.y)
          + (dp.z * (p.z + 0 * dp.z) + (p.z + 0 * dp.z) * dp.z))) 0 :=
    (((hsq p.x dp.x).add (hsq p.y dp.y)).add (hsq p.z dp.z)).const_mul
      (-Real.pi * (a * a))
  have hE := hA.exp
  have hB : HasDerivAt (fun t : ℝ => 2 * Real.pi *
      (omega.x * (p.x + t * dp.x) + omega.y * (p.y + t * dp.y)
        + omega.z * (p.z + t * dp.z)) + (ph + t * dph))
      (2 * Real.pi * (omega.x * dp.x + omega.y * dp.y + omega.z * dp.z) + dph) 0 :=
    (((((hasDerivAt_affine p.x dp.x).const_mul omega.x).add
        ((hasDerivAt_affine p.y dp.y).const_mul omega.y)).add
        ((hasDerivAt_affine p.z dp.z).const_mul omega.z)).const_mul
        (2 * Real.pi)).add (hasDerivAt_affine ph dph)
  have hC := hB.cos
  have hW := hasDerivAt_affine w dw
  have htot := (hW.mul hE).mul hC
  have hfun : (fun t : ℝ => gaborFormula (w + t * dw) omega (ph + t * dph) a
      ⟨p.x + t * dp.x, p.y + t * dp.y, p.z + t * dp.z⟩)
      = fun t : ℝ => (w + t * dw) * Real.exp (-Real.pi * (a * a) *
          ((p.x + t * dp.x) * (p.x + t * dp.x) + (p.y + t * dp.y) * (p.y + t * dp.y)
            + (p.z + t * dp.z) * (p.z + t * dp.z)))
        * Real.cos (2 * Real.pi *
            (omega.x * (p.x + t * dp.x) + omega.y * (p.y + t * dp.y)
              + omega.z * (p.z + t * dp.z)) + (ph + t * dph)) := by
    funext t
    simp only [gaborFormula, dot3]
  rw [hfun]
  convert htot using 1
  simp only [gaborFormulaDeriv, dot3]
  norm_num
  ring_nf

/-- Claim C7: the single-impulse kernel evaluator returns exactly
`weight * exp(-pi * bandwidth^2 * |x|^2) * cos(2*pi*dot(omega,x) + phase)`,
and the partials it carries are the exact analytic directional derivatives
of this expression along each of the two sampling directions (the `dx` and
`dy` rates of the dual inputs). -/
theorem gabor_kernel_spec (weight : Dual2 ℝ) (omega : Vec3) (phi : Dual2 ℝ)
    (bandwidth : ℝ) (x : Dual2 Vec3) :
    (gabor_kernel weight omega phi bandwidth x).val
        = gaborFormula weight.val omega phi.val bandwidth x.val ∧
    (gabor_kernel weight omega phi bandwidth x).dx
        = gaborFormulaDeriv weight.val weight.dx omega phi.val phi.dx bandwidth
            x.val x.dx ∧
    (gabor_kernel weight omega phi bandwidth x).dy
        = gaborFormulaDeriv weight.val weight.dy omega phi.val phi.dy bandwidth
            x.val x.dy := by
  simp only [gabor_kernel, gaborFormula, gaborFormulaDeriv, dMul, dExp, dCos,
    dAdd, dScale, dDot3, dDotV3, dot3]
  refine ⟨by ring_nf, by ring, by ring⟩

/-! ### The orthonormal basis builder -/

lemma dot3_pos_of_ne_zero {v : Vec3} (h : v ≠ ⟨0, 0, 0⟩) : 0 < dot3 v v := by
  rcases v with ⟨x, y, z⟩
  have hnn : (0 : ℝ) ≤ x * x + y * y + z * z := by
    nlinarith [mul_self_nonneg x, mul_self_nonneg y, mul_self_nonneg z]
  rcases lt_or_eq_of_le hnn with hp | hz
  · simpa [dot3] using hp
  · exfalso
    have hx : x = 0 := by nlinarith [sq_nonneg x, sq_nonneg y, sq_nonneg z]
    have hy : y = 0 := by nlinarith [sq_nonneg x, sq_nonneg y, sq_nonneg z]
    have hzz : z = 0 := by nlinarith [sq_nonneg x, sq_nonneg y, sq_nonneg z]
    exact h (by rw [hx, hy, hzz])

lemma dot3_smul_smul (c : ℝ) (u v : Vec3) :
    dot3 (smul3 c u) (smul3 c v) = c ^ 2 * dot3 u v := by
  simp only [dot3, smul3]
  ring

lemma dot3_smul_right (c : ℝ) (u v : Vec3) :
    dot3 u (smul3 c v) = c * dot3 u v := by
  simp only [dot3, smul3]
  ring

lemma normalize3_unit {v : Vec3} (h : 0 < dot3 v v) :
    dot3 (normalize3 v) (normalize3 v) = 1 := by
  rw [normalize3, dot3_smul_smul]
  have hs : Real.sqrt (dot3 v v) ^ 2 = dot3 v v := Real.sq_sqrt h.le
  rw [inv_pow, hs]
  exact inv_mul_cancel₀ h.ne'

lemma dot3_cross_left (u v : Vec3) : dot3 u (cross3 u v) = 0 := by
  simp only [dot3, cross3]
  ring

lemma dot3_cross_right (u v : Vec3) : dot3 v (cross3 u v) = 0 := by
  simp only [dot3, cross3]
  ring

lemma cross3_lagrange (u v : Vec3) :
    dot3 (cross3 u v) (cross3 u v) = dot3 u u * dot3 v v - dot3 u v ^ 2 := by
  simp only [dot3, cross3]
  ring

/-- Claim C8: for every non-zero direction `v`, the orthonormal-basis
builder outputs `(v', a, b)` that are pairwise orthogonal, each of unit
length (squared length 1), and satisfy `b = v' × a`, a right-handed
orthonormal frame; `v'` is the normalized input. -/
theorem make_orthonormals_spec (v : Vec3) (hv : v ≠ ⟨0, 0, 0⟩) :
    dot3 (make_orthonormals v).1 (make_orthonormals v).1 = 1 ∧
    dot3 (make_orthonormals v).2.1 (make_orthonormals v).2.1 = 1 ∧
    dot3 (make_orthonormals v).2.2 (make_orthonormals v).2.2 = 1 ∧
    dot3 (make_orthonormals v).1 (make_orthonormals v).2.1 = 0 ∧
    dot3 (make_orthonormals v).1 (make_orthonormals v).2.2 = 0 ∧
    dot3 (make_orthonormals v).2.1 (make_orthonormals v).2.2 = 0 ∧
    (make_orthonormals v).2.2 = cross3 (make_orthonormals v).1 (make_orthonormals v).2.1 := by
  have hvv : 0 < dot3 v v := dot3_pos_of_ne_zero hv
  set v' := normalize3 v with hv'
  have h1 : dot3 v' v' = 1 := normalize3_unit hvv
  set a0 : Vec3 :=
    if |v'.x| < (9 / 10 : ℝ) then ⟨0, v'.z, -v'.y⟩ else ⟨-v'.z, 0, v'.x⟩ with ha0
  have hva0 : dot3 v' a0 = 0 := by
    rw [ha0]
    split
    · simp only [dot3]; ring
    · simp only [dot3]; ring
  have ha0pos : 0 < dot3 a0 a0 := by
    rw [ha0]
    have h1x : v'.x * v'.x + v'.y * v'.y + v'.z * v'.z = 1 := by
      simpa [dot3] using h1
    split
    · rename_i hlt
      rw [abs_lt] at hlt
      simp only [dot3]
      nlinarith [hlt.1, hlt.2]
    · rename_i hge
      rw [not_lt] at hge
      have : (9 / 10 : ℝ) ^ 2 ≤ |v'.x| ^ 2 := by
        gcongr
      rw [sq_abs] at this
      simp only [dot3]
      nlinarith
  set a := normalize3 a0 with ha
  have h2 : dot3 a a = 1 := normalize3_unit ha0pos
  have hva : dot3 v' a = 0 := by
    rw [ha, normalize3, dot3_smul_right, hva0, mul_zero]
  have hbval : (make_orthonormals v).2.2 = cross3 v' a := rfl
  have hfst : (make_orthonormals v).1 = v' := rfl
  have hsnd : (make_orthonormals v).2.1 = a := rfl
  rw [hbval, hfst, hsnd]
  refine ⟨h1, h2, ?_, hva, dot3_cross_left v' a, dot3_cross_right v' a, rfl⟩
  rw [cross3_lagrange, h1, h2, hva]
  norm_num

/-- Witness for C8 at the concrete non-zero direction `(3, 4, 0)`. -/
theorem make_orthonormals_spec_witness :
    (⟨3, 4, 0⟩ : Vec3) ≠ ⟨0, 0, 0⟩ ∧
    dot3 (make_orthonormals ⟨3, 4, 0⟩).1 (make_orthonormals ⟨3, 4, 0⟩).1 = 1 := by
  have hne : (⟨3, 4, 0⟩ : Vec3) ≠ ⟨0, 0, 0⟩ := by
    intro h
    have := congrArg Vec3.x h
    norm_num at this
  exact ⟨hne, (make_orthonormals_spec ⟨3, 4, 0⟩ hne).1⟩

/-! ### The analytic filter on isotropic footprints -/

lemma msmul_midn (c : ℝ) : msmul c midn = mdiag c := by
  simp [msmul, midn, mdiag]

lemma msmul_mdiag (c k : ℝ) : msmul c (mdiag k) = mdiag (c * k) := by
  simp [msmul, mdiag]

lemma madd_mdiag (k l : ℝ) : madd (mdiag k) (mdiag l) = mdiag (k + l) := by
  simp [madd, mdiag]

lemma mmul_mdiag (k l : ℝ) : mmul (mdiag k) (mdiag l) = mdiag (k * l) := by
  simp [mmul, mdiag]

lemma mdiag_det (k : ℝ) : (mdiag k).det = k ^ 2 := by
  simp [Matrix22.det, mdiag]
  ring

lemma mdiag_inverse (k : ℝ) : (mdiag k).inverse = mdiag k⁻¹ := by
  rcases eq_or_ne k 0 with h | h
  · subst h
    simp [Matrix22.inverse, Matrix22.det, mdiag, msmul]
  · simp only [Matrix22.inverse, Matrix22.det, mdiag, msmul, mul_zero, zero_mul,
      sub_zero, neg_zero]
    rw [Matrix22.mk.injEq]
    refine ⟨?_, by ring, by ring, ?_⟩ <;>
      rw [mul_inv, mul_assoc, inv_mul_cancel₀ h, mul_one]

lemma mvmul_mdiag (k : ℝ) (v : Vec2) : mvmul (mdiag k) v = smul2 k v := by
  simp [mvmul, mdiag, smul2]

lemma dot2_smul2 (k : ℝ) (v : Vec2) :
    dot2 (smul2 k v) (smul2 k v) = k ^ 2 * dot2 v v := by
  simp only [dot2, smul2]
  ring

lemma nrm2_smul2 {k : ℝ} (hk : 0 ≤ k) (v : Vec2) :
    nrm2 (smul2 k v) = k * nrm2 v := by
  rw [nrm2, dot2_smul2, Real.sqrt_mul (sq_nonneg k), Real.sqrt_sq_eq_abs,
    abs_of_nonneg hk, nrm2]

/-- For an isotropic footprint covariance `s · I`, the filter's effective
bandwidth and orientation mean in closed form:
`a_f = sqrt(2*pi / (4*pi^2*s + 2*pi/a^2))` and
`omega_f = omega / (2*pi*a^2*s + 1)`. -/
lemma filter_iso_closed_form (a s : ℝ) (ha : 0 < a) (hs : 0 < s)
    (w phi : Dual2 ℝ) (omega : Vec2) :
    (filter_gabor_kernel_2d (msmul s midn) w a omega phi).a_f
        = Real.sqrt (2 * Real.pi / (4 * Real.pi ^ 2 * s + 2 * Real.pi / (a * a))) ∧
    (filter_gabor_kernel_2d (msmul s midn) w a omega phi).omega_f
        = smul2 (1 / (2 * Real.pi * (a * a) * s + 1)) omega := by
  have hpi := Real.pi_pos
  have hane : a ≠ 0 := ha.ne'
  have hsne : s ≠ 0 := hs.ne'
  have hpine : Real.pi ≠ 0 := hpi.ne'
  have hD : (0 : ℝ) < 4 * Real.pi ^ 2 * s + 2 * Real.pi / (a * a) := by positivity
  have hsum : ((1 / (4 * Real.pi ^ 2)) * s⁻¹)⁻¹ + (a * a / (2 * Real.pi))⁻¹
      = 4 * Real.pi ^ 2 * s + 2 * Real.pi / (a * a) := by
    field_simp
  constructor
  · show Real.sqrt (2 * Real.pi * Real.sqrt (Matrix22.det _)) = _
    rw [msmul_midn, mdiag_inverse, msmul_mdiag, mdiag_inverse, msmul_midn,
      mdiag_inverse, madd_mdiag, mdiag_inverse, mdiag_det, hsum,
      Real.sqrt_sq (by positivity), ← div_eq_mul_inv]
  · show mvmul (mmul _ _) omega = _
    rw [msmul_midn, mdiag_inverse, msmul_mdiag, mdiag_inverse, msmul_midn,
      mdiag_inverse, madd_mdiag, mdiag_inverse, mmul_mdiag, mvmul_mdiag, hsum]
    have hk : (4 * Real.pi ^ 2 * s + 2 * Real.pi / (a * a))⁻¹
        * (a * a / (2 * Real.pi))⁻¹ = 1 / (2 * Real.pi * (a * a) * s + 1) := by
      rw [← mul_inv, ← one_div]
      congr 1
      field_simp
      ring
    rw [hk]

/-- Claim C3 (corrected), counterexample: with bandwidth 1 and a fixed
orientation, growing the isotropic footprint covariance from `1·I` to `2·I`
strictly DECREASES the effective bandwidth `a_f`, refuting the claim that
`a_f` is monotonically increasing in the footprint size. -/
theorem filter_af_decreasing_cex :
    (filter_gabor_kernel_2d (msmul 2 midn) ⟨1, 0, 0⟩ 1 ⟨1, 0⟩ ⟨0, 0, 0⟩).a_f
      < (filter_gabor_kernel_2d (msmul 1 midn) ⟨1, 0, 0⟩ 1 ⟨1, 0⟩ ⟨0, 0, 0⟩).a_f := by
  have hpi := Real.pi_pos
  rw [(filter_iso_closed_form 1 2 one_pos two_pos ⟨1, 0, 0⟩ ⟨0, 0, 0⟩ ⟨1, 0⟩).1,
    (filter_iso_closed_form 1 1 one_pos one_pos ⟨1, 0, 0⟩ ⟨0, 0, 0⟩ ⟨1, 0⟩).1]
  apply Real.sqrt_lt_sqrt (by positivity)
  apply div_lt_div_of_pos_left (by positivity) (by positivity)
  nlinarith [Real.pi_pos]

/-- Claim C3 (amended): for fixed bandwidth `a > 0` and orientation `omega`,
as the isotropic footprint covariance `s · I` grows, the effective bandwidth
`a_f` strictly DECREASES (the filtered kernel's envelope widens, suppressing
high frequencies) and the norm of the effective orientation mean `omega_f`
decreases monotonically and tends to zero. -/
theorem filter_footprint_monotone (a : ℝ) (omega : Vec2) (w phi : Dual2 ℝ)
    (s1 s2 : ℝ) (ha : 0 < a) (hs1 : 0 < s1) (h12 : s1 < s2) :
    (filter_gabor_kernel_2d (msmul s2 midn) w a omega phi).a_f
        < (filter_gabor_kernel_2d (msmul s1 midn) w a omega phi).a_f ∧
    nrm2 (filter_gabor_kernel_2d (msmul s2 midn) w a omega phi).omega_f
        ≤ nrm2 (filter_gabor_kernel_2d (msmul s1 midn) w a omega phi).omega_f ∧
    Filter.Tendsto
      (fun s => nrm2 (filter_gabor_kernel_2d (msmul s midn) w a omega phi).omega_f)
      Filter.atTop (nhds 0) := by
  have hpi := Real.pi_pos
  have hs2 : 0 < s2 := hs1.trans h12
  obtain ⟨haf1, hof1⟩ := filter_iso_closed_form a s1 ha hs1 w phi omega
  obtain ⟨haf2, hof2⟩ := filter_iso_closed_form a s2 ha hs2 w phi omega
  refine ⟨?_, ?_, ?_⟩
  · rw [haf1, haf2]
    apply Real.sqrt_lt_sqrt (by positivity)
    apply div_lt_div_of_pos_left (by positivity) (by positivity)
    have : 4 * Real.pi ^ 2 * s1 < 4 * Real.pi ^ 2 * s2 :=
      mul_lt_mul_of_pos_left h12 (by positivity)
    linarith
  · rw [hof1, hof2, nrm2_smul2 (by positivity) omega, nrm2_smul2 (by positivity) omega]
    apply mul_le_mul_of_nonneg_right _ (Real.sqrt_nonneg _)
    apply one_div_le_one_div_of_le (by positivity)
    have : 2 * Real.pi * (a * a) * s1 ≤ 2 * Real.pi * (a * a) * s2 :=
      mul_le_mul_of_nonneg_left h12.le (by positivity)
    linarith
  · have hev : ∀ᶠ s in Filter.atTop,
        (2 * Real.pi * (a * a) * s + 1)⁻¹ * nrm2 omega
          = nrm2 (filter_gabor_kernel_2d (msmul s midn) w a omega phi).omega_f := by
      rw [Filter.eventually_atTop]
      refine ⟨1, fun s hs => ?_⟩
      have hspos : 0 < s := lt_of_lt_of_le one_pos hs
      rw [(filter_iso_closed_form a s ha hspos w phi omega).2,
        nrm2_smul2 (by positivity) omega, one_div]
    have hden : Filter.Tendsto (fun s : ℝ => 2 * Real.pi * (a * a) * s + 1)
        Filter.atTop Filter.atTop := by
      apply Filter.tendsto_atTop_add_const_right
      exact (Filter.tendsto_const_mul_atTop_of_pos (by positivity)).mpr
        Filter.tendsto_id
    have hinv := hden.inv_tendsto_atTop
    have hmul := hinv.mul_const (nrm2 omega)
    rw [zero_mul] at hmul
    exact Filter.Tendsto.congr' hev (by simpa [Pi.inv_def] using hmul)

/-- Witness for C3 (amended) at concrete inputs `a = 1`, `s1 = 1`, `s2 = 2`. -/
theorem filter_footprint_monotone_witness :
    ((0 : ℝ) < 1 ∧ (1 : ℝ) < 2) ∧
    (filter_gabor_kernel_2d (msmul 2 midn) ⟨1, 0, 0⟩ 1 ⟨0, 1⟩ ⟨0, 0, 0⟩).a_f
      < (filter_gabor_kernel_2d (msmul 1 midn) ⟨1, 0, 0⟩ 1 ⟨0, 1⟩ ⟨0, 0, 0⟩).a_f :=
  ⟨⟨one_pos, one_lt_two⟩,
    (filter_footprint_monotone 1 ⟨0, 1⟩ ⟨1, 0, 0⟩ ⟨0, 0, 0⟩ 1 2
      one_pos one_pos one_lt_two).1⟩

/-! ### Configuration-error handling -/

/-- Claim C4: a footprint covariance with non-positive determinant is
rejected with a configuration error at `NoiseParams` validation time,
before any per-sample evaluation; the filter itself
(`filter_gabor_kernel_2d`, embedded above as a total function) contains no
error path. -/
theorem validate_rejects_singular (p : NoiseParams) (h : p.filter.det ≤ 0) :
    ∃ e, validateNoiseParams p = Except.error e := by
  unfold validateNoiseParams
  by_cases hb : p.bandwidth ≤ 0
  · exact ⟨.nonPositiveBandwidth, by rw [if_pos hb]⟩
  · exact ⟨.singularCovariance, by rw [if_neg hb, if_pos h]⟩

/-- Complement to claim C4: parameters that pass validation have strictly
positive bandwidth and footprint determinant and are returned unchanged, so
the hot evaluation path may assume validated parameters and perform no
checking of its own. -/
lemma validate_ok_means_valid (p q : NoiseParams)
    (h : validateNoiseParams p = Except.ok q) :
    0 < q.bandwidth ∧ 0 < q.filter.det ∧ q = p := by
  unfold validateNoiseParams at h
  by_cases hb : p.bandwidth ≤ 0
  · rw [if_pos hb] at h
    exact absurd h (by simp)
  · rw [if_neg hb] at h
    by_cases hd : p.filter.det ≤ 0
    · rw [if_pos hd] at h
      exact absurd h (by simp)
    · rw [if_neg hd] at h
      obtain rfl := Except.ok.inj h
      exact ⟨not_le.mp hb, not_le.mp hd, rfl⟩

/-- Witness for C4 at a concrete singular covariance (determinant −1). -/
theorem validate_rejects_singular_witness :
    ({ bandwidth := 1, filter := ⟨1, 0, 0, -1⟩ } : NoiseParams).filter.det ≤ 0 ∧
    ∃ e, validateNoiseParams { bandwidth := 1, filter := ⟨1, 0, 0, -1⟩ }
        = Except.error e := by
  have hdet : ({ bandwidth := 1, filter := ⟨1, 0, 0, -1⟩ } : NoiseParams).filter.det ≤ 0 := by
    norm_num [Matrix22.det]
  exact ⟨hdet, validate_rejects_singular _ hdet⟩

end pvt
